import Mathlib

/-!
Shallow embedding of the starry-process core (src/process.rs together with
the global tables of src/table.rs).

The kernel state is a record of finite maps, modelled as association lists:

* `procs` is the heap of live `Arc<Process>` objects, keyed by pid.  A
  process is kept in the heap exactly while some owning reference to it
  exists (the global process table, a parent's `children` map, or a
  group's `processes` map); a `Weak` upgrade is a heap lookup.
* `groups` and `sessions` are likewise heaps of live `ProcessGroup` and
  `Session` objects, keyed by pgid and sid.
* `process_table`, `process_group_table` and `session_table` are the key
  sets of the three global registries of table.rs.

`BTreeMap`s whose values are `Arc`s keyed by the owned object's own id
(`children`, `processes`, `process_groups`) are modelled by their sorted
key lists; the object itself is found in the corresponding heap.  Fallible
operations return `Option`: `none` models a panic (a failed `unwrap` or a
violated `assert!`), and `Except AxError` carries the `AxResult` value.
-/

namespace StarryProcess

abbrev Pid := Nat
abbrev Pgid := Nat
abbrev Sid := Nat

/-- The axerrno error codes used by this crate. -/
inductive AxError where
  | NotFound
  | PermissionDenied
deriving DecidableEq, Repr

/-- Lookup in an association list (the heap of a reference-counted object
kind, keyed by id). -/
def lookupA {α : Type} : List (Nat × α) → Nat → Option α
  | [], _ => none
  | (k, v) :: t, q => if q = k then some v else lookupA t q

/-- Key membership in an association list. -/
def containsKeyA {α : Type} (l : List (Nat × α)) (q : Nat) : Bool :=
  (lookupA l q).isSome

/-- Replace the entry of a key in an association list, appending the entry
if the key is absent. -/
def setA {α : Type} : List (Nat × α) → Nat → α → List (Nat × α)
  | [], k, v => [(k, v)]
  | (k', v') :: t, k, v =>
    if k = k' then (k, v) :: t else (k', v') :: setA t k v

/-- Remove the entry of a key from an association list. -/
def eraseA {α : Type} : List (Nat × α) → Nat → List (Nat × α)
  | [], _ => []
  | (k', v') :: t, k => if k = k' then t else (k', v') :: eraseA t k

/-- Sorted, duplicate-free insertion into a key list: the model of
`BTreeMap::insert` for a map represented by its ascending key list. -/
def insertK : List Nat → Nat → List Nat
  | [], q => [q]
  | a :: t, q =>
    if q < a then q :: a :: t else if q = a then a :: t else a :: insertK t q

/-- Removal from a key list: the model of `BTreeMap::remove`. -/
def eraseK : List Nat → Nat → List Nat
  | [], _ => []
  | a :: t, q => if q = a then t else a :: eraseK t q

/-- Key membership in a key list. -/
def memK (l : List Nat) (q : Nat) : Bool := l.contains q

/-- The state of one `Process` (src/process.rs): the atomics and the
mutex-protected `ProcessInner`.  The pid is the key under which the record
is stored.  `children` is the ascending key list of the `children` map
(each value is the `Arc` of the process with that pid); `parent` and
`group` are the weak back-references (`none` models `Weak::new()`). -/
structure Process where
  is_zombie : Bool
  exit_code : Int
  children : List Pid
  parent : Option Pid
  group : Option Pgid
deriving DecidableEq, Repr

/-- The state of one `ProcessGroup`: its member `processes` map (ascending
pid list, values being the member `Arc<Process>`es) and the weak reference
to its `Session`.  The pgid is the key in the `groups` heap. -/
structure ProcessGroup where
  processes : List Pid
  session : Option Sid
deriving DecidableEq, Repr

/-- The state of one `Session`: its member `process_groups` map (ascending
pgid list).  The sid is the key in the `sessions` heap. -/
structure Session where
  process_groups : List Pgid
deriving DecidableEq, Repr

/-- The whole kernel state: the three object heaps and the three global
registries of src/table.rs. -/
structure Kernel where
  procs : List (Pid × Process)
  groups : List (Pgid × ProcessGroup)
  sessions : List (Sid × Session)
  process_table : List Pid
  process_group_table : List Pgid
  session_table : List Sid
deriving DecidableEq, Repr

/-- The empty boot state: all tables start empty. -/
def Kernel.empty : Kernel := ⟨[], [], [], [], [], []⟩

/-- `Process::new(pid, parent)`: a fresh non-zombie process with no
children and `Weak::new()` group, registered in the global process
table. -/
def Process.new (pid : Pid) (parent : Option Pid) (s : Kernel) : Kernel :=
  { s with
    procs := setA s.procs pid ⟨false, 0, [], parent, none⟩
    process_table := insertK s.process_table pid }

/-- `self.inner().parent.upgrade()`: the weak parent reference resolves
only while the parent object is still alive in the heap. -/
def parentUpgrade (s : Kernel) (q : Pid) : Option Pid :=
  match lookupA s.procs q with
  | none => none
  | some qs =>
    match qs.parent with
    | none => none
    | some par => if containsKeyA s.procs par then some par else none

/-- Modelled from the spec: the `ProcessGroup::new(&process)` constructor
called by process.rs is missing from the tree (the process_group.rs
present belongs to a later API revision with a `new(pgid, &session)`
signature and `Weak<Process>` members, which process.rs does not compile
against).  Per spec sections 3 and 4.2, the new group is led by the given
process (pgid = pid), holds exactly that process in `processes`, starts
with no session, sets the process's `group` back-reference, and registers
itself in the global process-group table. -/
def ProcessGroup.new (p : Pid) (s : Kernel) : Kernel :=
  let s1 : Kernel := { s with
    groups := setA s.groups p ⟨[p], none⟩
    process_group_table := insertK s.process_group_table p }
  match lookupA s1.procs p with
  | none => s1
  | some ps => { s1 with procs := setA s1.procs p { ps with group := some p } }

/-- Modelled from the spec: the `Session::new(&group)` constructor called
by process.rs is likewise missing from the tree (the session.rs present
has a `new(sid)` signature of a later revision).  Per spec sections 3 and
4.2, the new session is led by the group (sid = pgid), holds exactly that
group in `process_groups`, sets the group's weak `session` reference, and
registers itself in the global session table. -/
def Session.new (g : Pgid) (s : Kernel) : Kernel :=
  let s1 : Kernel := { s with
    sessions := setA s.sessions g ⟨[g]⟩
    session_table := insertK s.session_table g }
  match lookupA s1.groups g with
  | none => s1
  | some gs => { s1 with groups := setA s1.groups g { gs with session := some g } }

/-- `Process::new_init(pid)`: a parentless process with a fresh group and
session, both led by it. -/
def Process.new_init (pid : Pid) (s : Kernel) : Kernel :=
  Session.new pid (ProcessGroup.new pid (Process.new pid none s))

/-- `Process::new_child(pid)` called on process `p`: create the child with
`p` as weak parent, insert it into `p`'s `children`, and copy `p`'s weak
group reference into the child. -/
def Process.new_child (p : Pid) (pid : Pid) (s : Kernel) : Kernel :=
  let s1 := Process.new pid (some p) s
  match lookupA s1.procs p with
  | none => s1
  | some ps =>
    let s2 : Kernel :=
      { s1 with procs := setA s1.procs p { ps with children := insertK ps.children pid } }
    match lookupA s2.procs pid with
    | none => s2
    | some cs => { s2 with procs := setA s2.procs pid { cs with group := ps.group } }

/-- `Process::unlink(drop_session)`: remove the process from its group's
member map; if the group became empty, deregister the group (global table
and its session's member map, after which the group has no strong owner
left and is dropped from the heap), and if additionally `drop_session`
holds and the session has no groups left, deregister and drop the session.
`none` models the panics of the two `unwrap`s (`group()` and the session
upgrade). -/
def Process.unlink (p : Pid) (drop_session : Bool) (s : Kernel) : Option Kernel :=
  match lookupA s.procs p with
  | none => none
  | some ps =>
  match ps.group with
  | none => none
  | some pg =>
  match lookupA s.groups pg with
  | none => none
  | some g =>
    let g' : ProcessGroup := { g with processes := eraseK g.processes p }
    if g'.processes.isEmpty then
      match g'.session with
      | none => none
      | some sid =>
      match lookupA s.sessions sid with
      | none => none
      | some sess =>
        let sess' : Session := { sess with process_groups := eraseK sess.process_groups pg }
        let s1 : Kernel := { s with
          groups := eraseA s.groups pg
          process_group_table := eraseK s.process_group_table pg
          sessions := setA s.sessions sid sess' }
        if drop_session && sess'.process_groups.isEmpty then
          some { s1 with
            sessions := eraseA s1.sessions sid
            session_table := eraseK s1.session_table sid }
        else some s1
    else some { s with groups := setA s.groups pg g' }

/-- `Process::free()`: `assert!(is_zombie)` (panic otherwise), `unlink(true)`,
remove from the global process table; the process object itself is dropped
once no owning reference (table entry, parent's `children` entry, group
membership) remains. -/
def Process.free (p : Pid) (s : Kernel) : Option Kernel :=
  match lookupA s.procs p with
  | none => none
  | some ps =>
    if !ps.is_zombie then none
    else
      match Process.unlink p true s with
      | none => none
      | some s1 =>
        let s2 : Kernel := { s1 with process_table := eraseK s1.process_table p }
        if memK s2.process_table p
            || s2.procs.any (fun q => memK q.2.children p)
            || s2.groups.any (fun g => memK g.2.processes p)
        then some s2
        else some { s2 with procs := eraseA s2.procs p }

/-- First half of one iteration of the loop in
`Process::move_children_to`: rewrite the moved child's weak `parent`
reference to the target `i`. -/
def adoptParent (i : Pid) (s : Kernel) (c : Pid) : Kernel :=
  match lookupA s.procs c with
  | none => s
  | some cst => { s with procs := setA s.procs c { cst with parent := some i } }

/-- Second half of one iteration of the loop in
`Process::move_children_to`: insert the moved child into the target's
`children` map. -/
def adoptTarget (i : Pid) (s : Kernel) (c : Pid) : Kernel :=
  match lookupA s.procs i with
  | none => s
  | some ist =>
    { s with procs := setA s.procs i { ist with children := insertK ist.children c } }

/-- One iteration of the loop in `Process::move_children_to`: rewrite the
child's weak `parent` to the target `i` and insert the child into `i`'s
`children` map. -/
def adopt (i : Pid) (s : Kernel) (c : Pid) : Kernel :=
  adoptTarget i (adoptParent i s c) c

/-- `Process::move_children_to(target)`: `mem::take` the `children` map,
then move every entry to the target, rewriting each moved child's parent
back-reference. -/
def Process.move_children_to (p : Pid) (i : Pid) (s : Kernel) : Kernel :=
  match lookupA s.procs p with
  | none => s
  | some ps =>
    (ps.children).foldl (adopt i) { s with procs := setA s.procs p { ps with children := [] } }

/-- The `while let Some(parent) = current` loop of `Process::exit`: follow
resolvable parent links, remembering the last process reached.  The fuel
argument makes the recursion structural; any acyclic parent chain in a
heap of n processes is exhausted within n + 1 steps. -/
def walkInit (s : Kernel) : Nat → Option Pid → Option Pid → Option Pid
  | _, none, acc => acc
  | 0, some _, acc => acc
  | fuel + 1, some q, _ => walkInit s fuel (parentUpgrade s q) (some q)

/-- The init process found by `Process::exit`: the topmost process reached
by walking the parent chain from `p`'s parent. -/
def findInit (s : Kernel) (p : Pid) : Option Pid :=
  walkInit s (s.procs.length + 1) (parentUpgrade s p) none

/-- `Process::exit()`: set `is_zombie`, walk the parent chain to the
topmost resolvable ancestor, and move the children there if one exists;
a root process keeps its children (the `TODO: init process exited!?`
branch does nothing).  The process stays in every table and map it is in
until it is reaped. -/
def Process.exit (p : Pid) (s : Kernel) : Kernel :=
  match lookupA s.procs p with
  | none => s
  | some ps =>
    let s1 : Kernel := { s with procs := setA s.procs p { ps with is_zombie := true } }
    match findInit s1 p with
    | none => s1
    | some i => Process.move_children_to p i s1

/-- `Process::create_session()`: fail `PermissionDenied` if the pid already
names a process group; no-op returning the current session if already its
leader; otherwise `unlink(true)` and build a fresh group and session led by
the caller.  The returned `Sid` stands for the returned `Arc<Session>`. -/
def Process.create_session (p : Pid) (s : Kernel) : Option (Except AxError Sid × Kernel) :=
  if memK s.process_group_table p then some (.error .PermissionDenied, s)
  else
    match lookupA s.procs p with
    | none => none
    | some ps =>
    match ps.group with
    | none => none
    | some pg =>
    match lookupA s.groups pg with
    | none => none
    | some g =>
    match g.session with
    | none => none
    | some sid =>
    match lookupA s.sessions sid with
    | none => none
    | some _sess =>
    if sid = p then some (.ok sid, s)
    else
      match Process.unlink p true s with
      | none => none
      | some s1 => some (.ok p, Session.new p (ProcessGroup.new p s1))

/-- `Process::set_group(pgid)`: no-op on the current group; deny session
leaders; join an existing group only within the same session; otherwise
create a group under the caller's own pid inside the current session. -/
def Process.set_group (p : Pid) (pgid : Pgid) (s : Kernel) :
    Option (Except AxError Unit × Kernel) :=
  match lookupA s.procs p with
  | none => none
  | some ps =>
  match ps.group with
  | none => none
  | some pg =>
  match lookupA s.groups pg with
  | none => none
  | some g =>
  if pgid = pg then some (.ok (), s)
  else
    match g.session with
    | none => none
    | some sid =>
    match lookupA s.sessions sid with
    | none => none
    | some sess =>
    if sid = p then some (.error .PermissionDenied, s)
    else if memK s.process_group_table pgid then
      match lookupA s.groups pgid with
      | none => none
      | some _tg =>
      if !memK sess.process_groups pgid then some (.error .PermissionDenied, s)
      else
        match Process.unlink p false s with
        | none => none
        | some s1 =>
        match lookupA s1.groups pgid with
        | none => none
        | some tg1 =>
        match lookupA s1.procs p with
        | none => none
        | some ps1 =>
        some (.ok (),
          { s1 with
            groups := setA s1.groups pgid { tg1 with processes := insertK tg1.processes p },
            procs := setA s1.procs p { ps1 with group := some pgid } })
    else if pgid ≠ p then some (.error .PermissionDenied, s)
    else
      match Process.unlink p false s with
      | none => none
      | some s1 =>
      match lookupA (ProcessGroup.new p s1).groups p with
      | none => none
      | some ng =>
      match lookupA (ProcessGroup.new p s1).sessions sid with
      | none => none
      | some sess1 =>
      some (.ok (),
        { ProcessGroup.new p s1 with
          groups := setA (ProcessGroup.new p s1).groups p { ng with session := some sid },
          sessions := setA (ProcessGroup.new p s1).sessions sid
            { sess1 with process_groups := insertK sess1.process_groups p } })

/-- The `ProcessFilter` enum used by `find_zombie_child`. -/
inductive ProcessFilter where
  | Any
  | WithPid (pid : Pid)
  | WithPgid (pgid : Pgid)
deriving DecidableEq, Repr

/-- `ProcessFilter::apply(&child)`: the `WithPgid` arm dereferences the
child's group through `group()`, whose `unwrap` panics (`none`) if the weak
reference is unset or dead. -/
def ProcessFilter.apply (s : Kernel) (f : ProcessFilter) (c : Pid) : Option Bool :=
  match f with
  | .Any => some true
  | .WithPid pid => some (c == pid)
  | .WithPgid pgid =>
    match lookupA s.procs c with
    | none => none
    | some cst =>
    match cst.group with
    | none => none
    | some pg => if containsKeyA s.groups pg then some (pg == pgid) else none

/-- The `children.values().filter(..).collect()` step of
`find_zombie_child`: keep, in map order, the children the filter accepts;
a panic while applying the filter aborts the whole collection. -/
def collectMatching (s : Kernel) (f : ProcessFilter) : List Pid → Option (List Pid)
  | [] => some []
  | c :: t =>
    match ProcessFilter.apply s f c with
    | none => none
    | some b =>
      match collectMatching s f t with
      | none => none
      | some r => some (if b then c :: r else r)

/-- `child.is_zombie()` for a child held by `Arc` in a `children` map. -/
def isZombieOf (s : Kernel) (c : Pid) : Bool :=
  match lookupA s.procs c with
  | none => false
  | some st => st.is_zombie

/-- `Process::find_zombie_child(filter)`: `NotFound` when no child matches
the filter, the first matching zombie in ascending pid order when one
exists, `Ok(None)` otherwise. -/
def Process.find_zombie_child (p : Pid) (f : ProcessFilter) (s : Kernel) :
    Option (Except AxError (Option Pid)) :=
  match lookupA s.procs p with
  | none => none
  | some ps =>
  match collectMatching s f ps.children with
  | none => none
  | some l =>
    if l.isEmpty then some (.error .NotFound)
    else
      match l.find? (isZombieOf s) with
      | some z => some (.ok (some z))
      | none => some (.ok none)

/-- The `children` key list of a process (empty if the process is dead). -/
def childrenOf (s : Kernel) (p : Pid) : List Pid :=
  match lookupA s.procs p with
  | none => []
  | some ps => ps.children

/-- The raw weak `parent` field of a process. -/
def parentRefOf (s : Kernel) (p : Pid) : Option Pid :=
  match lookupA s.procs p with
  | none => none
  | some ps => ps.parent

/-- The raw weak `group` field of a process. -/
def groupRefOf (s : Kernel) (p : Pid) : Option Pgid :=
  match lookupA s.procs p with
  | none => none
  | some ps => ps.group

/-- The member pid list of a process group (empty if the group is dead). -/
def groupMembers (s : Kernel) (pg : Pgid) : List Pid :=
  match lookupA s.groups pg with
  | none => []
  | some g => g.processes

/-- Whether `p` is a session leader: its session's sid equals its pid. -/
def isSessionLeader (s : Kernel) (p : Pid) : Bool :=
  match lookupA s.procs p with
  | none => false
  | some ps =>
  match ps.group with
  | none => false
  | some pg =>
  match lookupA s.groups pg with
  | none => false
  | some g =>
    match g.session with
    | none => false
    | some sid => sid == p

/-- A bound check along the parent chain: the walk starting at `cur`
reaches a process with no resolvable parent within `fuel` steps, never
passing through a pid of `cs`. -/
def walkAvoids (s : Kernel) (cs : List Pid) : Nat → Option Pid → Bool
  | _, none => true
  | 0, some _ => false
  | fuel + 1, some q => !memK cs q && walkAvoids s cs fuel (parentUpgrade s q)

/-- The well-formedness of an `exit` call used for the idempotence proof:
if the parent walk finds an init `i`, then `i` is alive, distinct from the
caller, not among the caller's children, and the walk terminates naturally
while avoiding the caller's children. -/
def exitWF (s : Kernel) (p : Pid) (ps : Process) : Bool :=
  match findInit s p with
  | none => true
  | some i =>
    containsKeyA s.procs i && !(i == p) && !memK ps.children i &&
      walkAvoids s ps.children (s.procs.length + 1) (parentUpgrade s p)

instance {ε α : Type} [DecidableEq ε] [DecidableEq α] : DecidableEq (Except ε α) :=
  fun x y =>
    match x, y with
    | .error e, .error f =>
      if h : e = f then isTrue (by rw [h]) else isFalse (fun hh => by cases hh; exact h rfl)
    | .ok a, .ok b =>
      if h : a = b then isTrue (by rw [h]) else isFalse (fun hh => by cases hh; exact h rfl)
    | .error _, .ok _ => isFalse (fun hh => Except.noConfusion hh)
    | .ok _, .error _ => isFalse (fun hh => Except.noConfusion hh)

section AListLemmas

variable {α : Type}

theorem lookupA_setA_self (l : List (Nat × α)) (k : Nat) (v : α) :
    lookupA (setA l k v) k = some v := by
  induction l with
  | nil => simp [setA, lookupA]
  | cons h t ih =>
    obtain ⟨k', v'⟩ := h
    by_cases hk : k = k'
    · simp [setA, hk, lookupA]
    · simp [setA, hk, lookupA, ih]

theorem lookupA_setA_ne (l : List (Nat × α)) {k q : Nat} (v : α) (h : q ≠ k) :
    lookupA (setA l k v) q = lookupA l q := by
  induction l with
  | nil => simp [setA, lookupA, h]
  | cons hd t ih =>
    obtain ⟨k', v'⟩ := hd
    by_cases hk : k = k'
    · subst hk
      simp [setA, lookupA, h]
    · by_cases hq : q = k'
      · simp [setA, hk, lookupA, hq]
      · simp [setA, hk, lookupA, hq, ih]

theorem setA_eq_of_lookup {l : List (Nat × α)} {k : Nat} {v : α}
    (h : lookupA l k = some v) : setA l k v = l := by
  induction l with
  | nil => simp [lookupA] at h
  | cons hd t ih =>
    obtain ⟨k', v'⟩ := hd
    by_cases hk : k = k'
    · subst hk
      simp [lookupA] at h
      simp [setA, h]
    · simp [lookupA, Ne.symm hk, hk] at h
      simp [setA, hk, ih h]

theorem containsKeyA_setA (l : List (Nat × α)) (k q : Nat) (v : α) :
    containsKeyA (setA l k v) q = (decide (q = k) || containsKeyA l q) := by
  by_cases h : q = k
  · subst h
    simp [containsKeyA, lookupA_setA_self]
  · simp [containsKeyA, lookupA_setA_ne _ _ h, h]

theorem length_setA_of_contains {l : List (Nat × α)} {k : Nat}
    (h : containsKeyA l k = true) (v : α) : (setA l k v).length = l.length := by
  induction l with
  | nil => simp [containsKeyA, lookupA] at h
  | cons hd t ih =>
    obtain ⟨k', v'⟩ := hd
    by_cases hk : k = k'
    · simp [setA, hk]
    · simp [containsKeyA, lookupA, Ne.symm hk, hk] at h
      simp [setA, hk, ih h]

theorem mem_insertK {a b : Nat} {l : List Nat} :
    a ∈ insertK l b ↔ a = b ∨ a ∈ l := by
  induction l with
  | nil => simp [insertK]
  | cons hd t ih =>
    by_cases h1 : b < hd
    · simp [insertK, h1]
    · by_cases h2 : b = hd
      · subst h2
        simp [insertK, h1]
      · simp [insertK, h1, h2, ih]
        tauto

theorem mem_foldl_insertK {a : Nat} {cs : List Nat} {init : List Nat} :
    a ∈ cs.foldl insertK init ↔ a ∈ init ∨ a ∈ cs := by
  induction cs generalizing init with
  | nil => simp
  | cons c t ih =>
    simp only [List.foldl_cons, ih, mem_insertK, List.mem_cons]
    tauto

end AListLemmas

theorem memK_iff {l : List Nat} {q : Nat} : memK l q = true ↔ q ∈ l := by
  simp [memK]

theorem memK_eq_false_iff {l : List Nat} {q : Nat} : memK l q = false ↔ q ∉ l := by
  rw [← Bool.not_eq_true, memK_iff]

section AdoptLemmas

variable {i c q : Pid} {s : Kernel}

theorem adoptParent_rest (i : Pid) (s : Kernel) (c : Pid) :
    (adoptParent i s c).groups = s.groups ∧
      (adoptParent i s c).sessions = s.sessions ∧
      (adoptParent i s c).process_table = s.process_table ∧
      (adoptParent i s c).process_group_table = s.process_group_table ∧
      (adoptParent i s c).session_table = s.session_table := by
  unfold adoptParent
  cases lookupA s.procs c <;> exact ⟨rfl, rfl, rfl, rfl, rfl⟩

theorem adoptTarget_rest (i : Pid) (s : Kernel) (c : Pid) :
    (adoptTarget i s c).groups = s.groups ∧
      (adoptTarget i s c).sessions = s.sessions ∧
      (adoptTarget i s c).process_table = s.process_table ∧
      (adoptTarget i s c).process_group_table = s.process_group_table ∧
      (adoptTarget i s c).session_table = s.session_table := by
  unfold adoptTarget
  cases lookupA s.procs i <;> exact ⟨rfl, rfl, rfl, rfl, rfl⟩

theorem adopt_rest (i : Pid) (s : Kernel) (c : Pid) :
    (adopt i s c).groups = s.groups ∧
      (adopt i s c).sessions = s.sessions ∧
      (adopt i s c).process_table = s.process_table ∧
      (adopt i s c).process_group_table = s.process_group_table ∧
      (adopt i s c).session_table = s.session_table := by
  unfold adopt
  obtain ⟨g1, se1, pt1, pg1, st1⟩ := adoptTarget_rest i (adoptParent i s c) c
  obtain ⟨g2, se2, pt2, pg2, st2⟩ := adoptParent_rest i s c
  exact ⟨g1.trans g2, se1.trans se2, pt1.trans pt2, pg1.trans pg2, st1.trans st2⟩

theorem containsKeyA_adoptParent (q : Pid) :
    containsKeyA (adoptParent i s c).procs q = containsKeyA s.procs q := by
  unfold adoptParent
  cases h : lookupA s.procs c with
  | none => rfl
  | some cst =>
    show containsKeyA (setA s.procs c _) q = _
    rw [containsKeyA_setA]
    by_cases hq : q = c
    · subst hq
      simp [containsKeyA, h]
    · simp [hq]

theorem containsKeyA_adoptTarget (q : Pid) :
    containsKeyA (adoptTarget i s c).procs q = containsKeyA s.procs q := by
  unfold adoptTarget
  cases h : lookupA s.procs i with
  | none => rfl
  | some ist =>
    show containsKeyA (setA s.procs i _) q = _
    rw [containsKeyA_setA]
    by_cases hq : q = i
    · subst hq
      simp [containsKeyA, h]
    · simp [hq]

theorem containsKeyA_adopt (q : Pid) :
    containsKeyA (adopt i s c).procs q = containsKeyA s.procs q := by
  unfold adopt
  rw [containsKeyA_adoptTarget, containsKeyA_adoptParent]

theorem length_adoptParent : (adoptParent i s c).procs.length = s.procs.length := by
  unfold adoptParent
  cases h : lookupA s.procs c with
  | none => rfl
  | some cst =>
    exact length_setA_of_contains (by simp [containsKeyA, h]) _

theorem length_adoptTarget : (adoptTarget i s c).procs.length = s.procs.length := by
  unfold adoptTarget
  cases h : lookupA s.procs i with
  | none => rfl
  | some ist =>
    exact length_setA_of_contains (by simp [containsKeyA, h]) _

theorem length_adopt : (adopt i s c).procs.length = s.procs.length := by
  unfold adopt
  rw [length_adoptTarget, length_adoptParent]

theorem lookupA_adoptParent_ne (h : q ≠ c) :
    lookupA (adoptParent i s c).procs q = lookupA s.procs q := by
  unfold adoptParent
  cases hc : lookupA s.procs c with
  | none => rfl
  | some cst => exact lookupA_setA_ne _ _ h

theorem lookupA_adoptTarget_ne (h : q ≠ i) :
    lookupA (adoptTarget i s c).procs q = lookupA s.procs q := by
  unfold adoptTarget
  cases hi : lookupA s.procs i with
  | none => rfl
  | some ist => exact lookupA_setA_ne _ _ h

theorem lookupA_adopt_ne (h1 : q ≠ c) (h2 : q ≠ i) :
    lookupA (adopt i s c).procs q = lookupA s.procs q := by
  unfold adopt
  rw [lookupA_adoptTarget_ne h2, lookupA_adoptParent_ne h1]

theorem lookupA_adopt_child {cst : Process} (hci : c ≠ i)
    (h : lookupA s.procs c = some cst) :
    lookupA (adopt i s c).procs c = some { cst with parent := some i } := by
  unfold adopt
  rw [lookupA_adoptTarget_ne hci]
  unfold adoptParent
  rw [h]
  exact lookupA_setA_self _ _ _

theorem lookupA_adopt_target {ist : Process} (hci : c ≠ i)
    (h : lookupA s.procs i = some ist) :
    lookupA (adopt i s c).procs i =
      some { ist with children := insertK ist.children c } := by
  unfold adopt
  have hpi : lookupA (adoptParent i s c).procs i = some ist := by
    rw [lookupA_adoptParent_ne (Ne.symm hci)]
    exact h
  unfold adoptTarget
  rw [hpi]
  exact lookupA_setA_self _ _ _

end AdoptLemmas

section FoldLemmas

variable {i q : Pid} {cs : List Pid}

theorem foldl_adopt_rest (i : Pid) (cs : List Pid) (s : Kernel) :
    (cs.foldl (adopt i) s).groups = s.groups ∧
      (cs.foldl (adopt i) s).sessions = s.sessions ∧
      (cs.foldl (adopt i) s).process_table = s.process_table ∧
      (cs.foldl (adopt i) s).process_group_table = s.process_group_table ∧
      (cs.foldl (adopt i) s).session_table = s.session_table := by
  induction cs generalizing s with
  | nil => exact ⟨rfl, rfl, rfl, rfl, rfl⟩
  | cons c t ih =>
    simp only [List.foldl_cons]
    obtain ⟨g1, se1, pt1, pg1, st1⟩ := ih (s := adopt i s c)
    obtain ⟨g2, se2, pt2, pg2, st2⟩ := adopt_rest i s c
    exact ⟨g1.trans g2, se1.trans se2, pt1.trans pt2, pg1.trans pg2, st1.trans st2⟩

theorem containsKeyA_foldl_adopt (s : Kernel) (q : Pid) :
    containsKeyA (cs.foldl (adopt i) s).procs q = containsKeyA s.procs q := by
  induction cs generalizing s with
  | nil => rfl
  | cons c t ih =>
    simp only [List.foldl_cons]
    rw [ih, containsKeyA_adopt]

theorem length_foldl_adopt (s : Kernel) :
    (cs.foldl (adopt i) s).procs.length = s.procs.length := by
  induction cs generalizing s with
  | nil => rfl
  | cons c t ih =>
    simp only [List.foldl_cons]
    rw [ih, length_adopt]

theorem lookupA_foldl_adopt_not_mem (s : Kernel) (h1 : q ∉ cs) (h2 : q ≠ i) :
    lookupA (cs.foldl (adopt i) s).procs q = lookupA s.procs q := by
  induction cs generalizing s with
  | nil => rfl
  | cons c t ih =>
    simp only [List.foldl_cons]
    have hqc : q ≠ c := fun hh => h1 (hh ▸ List.mem_cons_self c t)
    rw [ih _ (fun hh => h1 (List.mem_cons_of_mem c hh)), lookupA_adopt_ne hqc h2]

theorem lookupA_foldl_adopt_target {ist : Process} (s : Kernel) (hni : i ∉ cs)
    (h : lookupA s.procs i = some ist) :
    lookupA (cs.foldl (adopt i) s).procs i =
      some { ist with children := cs.foldl insertK ist.children } := by
  induction cs generalizing s ist with
  | nil => exact h
  | cons c t ih =>
    simp only [List.foldl_cons]
    have hci : c ≠ i := fun hh => hni (hh ▸ List.mem_cons_self c t)
    have hstep := lookupA_adopt_target hci h
    exact ih (s := adopt i s c) (fun hh => hni (List.mem_cons_of_mem c hh)) hstep

theorem lookupA_foldl_adopt_moved {c0 : Pid} {c0st : Process} (s : Kernel)
    (hnd : cs.Pairwise (· ≠ ·)) (hni : i ∉ cs) (hmem : c0 ∈ cs)
    (h : lookupA s.procs c0 = some c0st) :
    lookupA (cs.foldl (adopt i) s).procs c0 = some { c0st with parent := some i } := by
  induction cs generalizing s with
  | nil => cases hmem
  | cons c t ih =>
    simp only [List.foldl_cons]
    have hci : c ≠ i := fun hh => hni (hh ▸ List.mem_cons_self c t)
    have hnit : i ∉ t := fun hh => hni (List.mem_cons_of_mem c hh)
    rcases List.mem_cons.mp hmem with heq | hmt
    · subst heq
      have hc0i : c0 ≠ i := hci
      have hstep := lookupA_adopt_child hc0i h
      have hnot : c0 ∉ t := fun hh => (List.rel_of_pairwise_cons hnd hh) rfl
      rw [lookupA_foldl_adopt_not_mem _ hnot hc0i]
      exact hstep
    · have hcc0 : c0 ≠ c := fun hh => (List.rel_of_pairwise_cons hnd hmt) hh.symm
      have hc0i : c0 ≠ i := fun hh => hnit (hh ▸ hmt)
      have hkeep : lookupA (adopt i s c).procs c0 = some c0st := by
        rw [lookupA_adopt_ne hcc0 hc0i]
        exact h
      exact ih (adopt i s c) hnd.of_cons hnit hmt hkeep

end FoldLemmas

section WalkLemmas

theorem setA_setA {α : Type} (l : List (Nat × α)) (k : Nat) (v w : α) :
    setA (setA l k v) k w = setA l k w := by
  induction l with
  | nil => simp [setA]
  | cons hd t ih =>
    obtain ⟨k', v'⟩ := hd
    by_cases hk : k = k'
    · simp [setA, hk]
    · simp [setA, hk, ih]

theorem parentUpgrade_congr_at {s' s : Kernel} {q : Pid}
    (hk : ∀ r, containsKeyA s'.procs r = containsKeyA s.procs r)
    (hq : (lookupA s'.procs q).map Process.parent = (lookupA s.procs q).map Process.parent) :
    parentUpgrade s' q = parentUpgrade s q := by
  unfold parentUpgrade
  cases h1 : lookupA s.procs q with
  | none =>
    have h2 : lookupA s'.procs q = none := by
      rw [h1] at hq
      exact Option.map_eq_none'.mp hq
    rw [h2]
  | some qs =>
    have h2 : Option.map Process.parent (lookupA s'.procs q) = some qs.parent := by
      rw [hq, h1]
      rfl
    obtain ⟨qs', hqs', hpar⟩ := Option.map_eq_some'.mp h2
    rw [hqs']
    dsimp only
    rw [hpar]
    cases qs.parent with
    | none => rfl
    | some par =>
      dsimp only
      rw [hk par]

theorem parentUpgrade_setA_same_parent {s : Kernel} {p : Pid} {ps v : Process}
    (hps : lookupA s.procs p = some ps) (hpar : v.parent = ps.parent) :
    ∀ q, parentUpgrade { s with procs := setA s.procs p v } q = parentUpgrade s q := by
  intro q
  have hcont : containsKeyA s.procs p = true := by simp [containsKeyA, hps]
  apply parentUpgrade_congr_at
  · intro r
    show containsKeyA (setA s.procs p v) r = _
    rw [containsKeyA_setA]
    by_cases hr : r = p
    · subst hr
      simp [hcont]
    · simp [hr]
  · show (lookupA (setA s.procs p v) q).map Process.parent = _
    by_cases hq : q = p
    · subst hq
      rw [lookupA_setA_self, hps]
      simp [hpar]
    · rw [lookupA_setA_ne _ _ hq]

theorem walkInit_congr {s' s : Kernel}
    (h : ∀ q, parentUpgrade s' q = parentUpgrade s q) :
    ∀ (fuel : Nat) (cur acc : Option Pid),
      walkInit s' fuel cur acc = walkInit s fuel cur acc := by
  intro fuel
  induction fuel with
  | zero => intro cur acc; cases cur <;> simp [walkInit]
  | succ n ih =>
    intro cur acc
    cases cur with
    | none => simp [walkInit]
    | some q => simp [walkInit, h q, ih]

theorem findInit_congr {s' s : Kernel}
    (h : ∀ q, parentUpgrade s' q = parentUpgrade s q)
    (hlen : s'.procs.length = s.procs.length) (p : Pid) :
    findInit s' p = findInit s p := by
  unfold findInit
  rw [hlen, h p, walkInit_congr h]

theorem walkInit_eq_of_avoids {s' s : Kernel} {cs : List Pid}
    (hpu : ∀ q, q ∉ cs → parentUpgrade s' q = parentUpgrade s q) :
    ∀ (fuel : Nat) (cur acc : Option Pid), walkAvoids s cs fuel cur = true →
      walkInit s' fuel cur acc = walkInit s fuel cur acc ∧
        walkAvoids s' cs fuel cur = true := by
  intro fuel
  induction fuel with
  | zero =>
    intro cur acc hav
    cases cur with
    | none => exact ⟨rfl, rfl⟩
    | some q => simp [walkAvoids] at hav
  | succ n ih =>
    intro cur acc hav
    cases cur with
    | none => exact ⟨rfl, rfl⟩
    | some q =>
      simp only [walkAvoids, Bool.and_eq_true, Bool.not_eq_true'] at hav
      obtain ⟨hq, hrest⟩ := hav
      have hqn : q ∉ cs := memK_eq_false_iff.mp hq
      have heq := hpu q hqn
      obtain ⟨h1, h2⟩ := ih (parentUpgrade s q) (some q) hrest
      constructor
      · simp only [walkInit, heq, h1]
      · simp only [walkAvoids, hq, h2, heq, Bool.not_false, Bool.true_and]

end WalkLemmas

section ExitLemmas

/-- When the parent walk finds an init `i`, `exit` is the fold that moves
the children there, applied after the zombie flag is set and the caller's
`children` map has been emptied. -/
theorem exit_eq_fold {s : Kernel} {p i : Pid} {ps : Process}
    (hps : lookupA s.procs p = some ps) (hfind : findInit s p = some i) :
    Process.exit p s =
      ps.children.foldl (adopt i)
        { s with procs := setA s.procs p { ps with is_zombie := true, children := [] } } := by
  have hcont : containsKeyA s.procs p = true := by simp [containsKeyA, hps]
  have hpu := parentUpgrade_setA_same_parent (v := { ps with is_zombie := true }) hps rfl
  have hlen : (setA s.procs p { ps with is_zombie := true }).length = s.procs.length :=
    length_setA_of_contains hcont _
  have hfind1 :
      findInit { s with procs := setA s.procs p { ps with is_zombie := true } } p = some i := by
    rw [findInit_congr hpu hlen p]
    exact hfind
  unfold Process.exit
  rw [hps]
  simp only [hfind1]
  unfold Process.move_children_to
  rw [lookupA_setA_self]
  simp only [setA_setA]

/-- When the parent walk finds no init, `exit` only sets the zombie flag. -/
theorem exit_eq_zombie {s : Kernel} {p : Pid} {ps : Process}
    (hps : lookupA s.procs p = some ps) (hfind : findInit s p = none) :
    Process.exit p s = { s with procs := setA s.procs p { ps with is_zombie := true } } := by
  have hcont : containsKeyA s.procs p = true := by simp [containsKeyA, hps]
  have hpu := parentUpgrade_setA_same_parent (v := { ps with is_zombie := true }) hps rfl
  have hlen : (setA s.procs p { ps with is_zombie := true }).length = s.procs.length :=
    length_setA_of_contains hcont _
  have hfind1 :
      findInit { s with procs := setA s.procs p { ps with is_zombie := true } } p = none := by
    rw [findInit_congr hpu hlen p]
    exact hfind
  unfold Process.exit
  rw [hps]
  simp only [hfind1]

theorem exit_lookup_self {s : Kernel} {p i : Pid} {ps : Process}
    (hps : lookupA s.procs p = some ps) (hfind : findInit s p = some i)
    (hip : i ≠ p) (hpcs : p ∉ ps.children) :
    lookupA (Process.exit p s).procs p = some { ps with is_zombie := true, children := [] } := by
  rw [exit_eq_fold hps hfind]
  rw [lookupA_foldl_adopt_not_mem _ hpcs (Ne.symm hip)]
  exact lookupA_setA_self _ _ _

theorem exit_lookup_other {s : Kernel} {p i q : Pid} {ps : Process}
    (hps : lookupA s.procs p = some ps) (hfind : findInit s p = some i)
    (hq1 : q ∉ ps.children) (hq2 : q ≠ p) (hq3 : q ≠ i) :
    lookupA (Process.exit p s).procs q = lookupA s.procs q := by
  rw [exit_eq_fold hps hfind]
  rw [lookupA_foldl_adopt_not_mem _ hq1 hq3]
  exact lookupA_setA_ne _ _ hq2

theorem exit_lookup_init {s : Kernel} {p i : Pid} {ps ist : Process}
    (hps : lookupA s.procs p = some ps) (hfind : findInit s p = some i)
    (hip : i ≠ p) (hics : i ∉ ps.children)
    (hist : lookupA s.procs i = some ist) :
    lookupA (Process.exit p s).procs i =
      some { ist with children := ps.children.foldl insertK ist.children } := by
  rw [exit_eq_fold hps hfind]
  apply lookupA_foldl_adopt_target _ hics
  rw [lookupA_setA_ne _ _ hip]
  exact hist

theorem exit_lookup_moved {s : Kernel} {p i c : Pid} {ps cst : Process}
    (hps : lookupA s.procs p = some ps) (hfind : findInit s p = some i)
    (hnd : ps.children.Pairwise (· ≠ ·)) (hics : i ∉ ps.children)
    (hc : c ∈ ps.children) (hcp : c ≠ p)
    (hcst : lookupA s.procs c = some cst) :
    lookupA (Process.exit p s).procs c = some { cst with parent := some i } := by
  rw [exit_eq_fold hps hfind]
  apply lookupA_foldl_adopt_moved _ hnd hics hc
  rw [lookupA_setA_ne _ _ hcp]
  exact hcst

theorem exit_keys {s : Kernel} {p i : Pid} {ps : Process}
    (hps : lookupA s.procs p = some ps) (hfind : findInit s p = some i) :
    ∀ q, containsKeyA (Process.exit p s).procs q = containsKeyA s.procs q := by
  intro q
  have hcont : containsKeyA s.procs p = true := by simp [containsKeyA, hps]
  rw [exit_eq_fold hps hfind, containsKeyA_foldl_adopt]
  show containsKeyA (setA s.procs p _) q = _
  rw [containsKeyA_setA]
  by_cases hq : q = p
  · subst hq
    simp [hcont]
  · simp [hq]

theorem exit_length {s : Kernel} {p i : Pid} {ps : Process}
    (hps : lookupA s.procs p = some ps) (hfind : findInit s p = some i) :
    (Process.exit p s).procs.length = s.procs.length := by
  have hcont : containsKeyA s.procs p = true := by simp [containsKeyA, hps]
  rw [exit_eq_fold hps hfind, length_foldl_adopt]
  exact length_setA_of_contains hcont _

end ExitLemmas

section WaitLemmas

theorem collectMatching_mem {s : Kernel} {f : ProcessFilter} {cs l : List Pid}
    (h : collectMatching s f cs = some l) :
    ∀ a, a ∈ l ↔ a ∈ cs ∧ ProcessFilter.apply s f a = some true := by
  induction cs generalizing l with
  | nil =>
    simp only [collectMatching, Option.some.injEq] at h
    subst h
    simp
  | cons c t ih =>
    intro a
    simp only [collectMatching] at h
    cases hb : ProcessFilter.apply s f c with
    | none => rw [hb] at h; cases h
    | some b =>
      rw [hb] at h
      cases hr : collectMatching s f t with
      | none => rw [hr] at h; cases h
      | some r =>
        rw [hr] at h
        simp only [Option.some.injEq] at h
        subst h
        have hmem := ih hr
        cases b with
        | true =>
          constructor
          · intro hal
            rw [if_pos rfl] at hal
            rcases List.mem_cons.mp hal with rfl | har
            · exact ⟨List.mem_cons_self _ _, hb⟩
            · obtain ⟨hat, hap⟩ := (hmem a).mp har
              exact ⟨List.mem_cons_of_mem _ hat, hap⟩
          · rintro ⟨hac, hap⟩
            rw [if_pos rfl]
            rcases List.mem_cons.mp hac with rfl | hat
            · exact List.mem_cons_self _ _
            · exact List.mem_cons_of_mem _ ((hmem a).mpr ⟨hat, hap⟩)
        | false =>
          constructor
          · intro hal
            rw [if_neg (by decide)] at hal
            obtain ⟨hat, hap⟩ := (hmem a).mp hal
            exact ⟨List.mem_cons_of_mem _ hat, hap⟩
          · rintro ⟨hac, hap⟩
            rw [if_neg (by decide)]
            rcases List.mem_cons.mp hac with rfl | hat
            · rw [hap] at hb
              cases hb
            · exact (hmem a).mpr ⟨hat, hap⟩

theorem collectMatching_sublist {s : Kernel} {f : ProcessFilter} {cs l : List Pid}
    (h : collectMatching s f cs = some l) : l.Sublist cs := by
  induction cs generalizing l with
  | nil =>
    simp only [collectMatching, Option.some.injEq] at h
    subst h
    exact List.Sublist.refl _
  | cons c t ih =>
    simp only [collectMatching] at h
    cases hb : ProcessFilter.apply s f c with
    | none => rw [hb] at h; cases h
    | some b =>
      rw [hb] at h
      cases hr : collectMatching s f t with
      | none => rw [hr] at h; cases h
      | some r =>
        rw [hr] at h
        simp only [Option.some.injEq] at h
        subst h
        cases b with
        | true => exact List.Sublist.cons₂ c (ih hr)
        | false => exact List.Sublist.cons c (ih hr)

theorem find?_first_le {l : List Nat} {pred : Nat → Bool} {z : Nat}
    (hs : l.Pairwise (· < ·)) (h : l.find? pred = some z) :
    ∀ c ∈ l, pred c = true → z ≤ c := by
  induction l with
  | nil => cases h
  | cons a t ih =>
    intro c hc hpc
    by_cases ha : pred a = true
    · rw [List.find?_cons_of_pos _ ha] at h
      injection h with h
      subst h
      rcases List.mem_cons.mp hc with rfl | hct
      · exact Nat.le_refl _
      · exact Nat.le_of_lt (List.rel_of_pairwise_cons hs hct)
    · rw [List.find?_cons_of_neg _ ha] at h
      rcases List.mem_cons.mp hc with rfl | hct
      · exact absurd hpc ha
      · exact ih hs.of_cons h c hct hpc

end WaitLemmas

/-- A record update writing back the same `procs` list is the identity. -/
theorem kernel_procs_eta (s : Kernel) : { s with procs := s.procs } = s := rfl

/-- C1: the claim says `free()` removes the process from its parent's
`children` set.  The code's `free` only unlinks the group/session side and
the global process table: after `init(1)` forks `2`, `2.exit()`,
`2.free()`, pid 2 is gone from the process table, yet it is still in
init's `children`, and `find_zombie_child(Any)` hands the already-freed
zombie out again. -/
theorem c1_free_keeps_child_in_parent_children :
    (Process.free 2 (Process.exit 2 (Process.new_child 1 2 (Process.new_init 1 Kernel.empty)))).map
        (fun k => (childrenOf k 1, memK k.process_table 2,
          Process.find_zombie_child 1 .Any k)) =
      some ([2], false, some (.ok (some 2))) := rfl

/-- C2: the claim says `new_child` inserts the child into the inherited
group's member set.  In the code the child gets the weak group reference
and is inserted into the parent's `children` and the process table, but
the group's `processes` map still holds only the parent. -/
theorem c2_new_child_missing_from_group_members :
    parentRefOf (Process.new_child 1 2 (Process.new_init 1 Kernel.empty)) 2 = some 1 ∧
      groupRefOf (Process.new_child 1 2 (Process.new_init 1 Kernel.empty)) 2 = some 1 ∧
      childrenOf (Process.new_child 1 2 (Process.new_init 1 Kernel.empty)) 1 = [2] ∧
      memK (Process.new_child 1 2 (Process.new_init 1 Kernel.empty)).process_table 2 = true ∧
      groupMembers (Process.new_child 1 2 (Process.new_init 1 Kernel.empty)) 1 = [1] :=
  ⟨rfl, rfl, rfl, rfl, rfl⟩

/-- C5 counterexample: the claim says a session leader's `set_group`
fails for every pgid.  `set_group` checks the no-op case first, so the
session leader `1` calling `set_group(1)` (its current pgid) succeeds. -/
theorem c5_session_leader_noop_counterexample :
    isSessionLeader (Process.new_init 1 Kernel.empty) 1 = true ∧
      Process.set_group 1 1 (Process.new_init 1 Kernel.empty) =
        some (.ok (), Process.new_init 1 Kernel.empty) :=
  ⟨rfl, rfl⟩

/-- C5 amended: a session leader's `set_group(pgid)` fails
`PermissionDenied` for every `pgid` other than its current group id (the
current id is a no-op success, caught before the leader check). -/
theorem c5_session_leader_set_group_denied (s : Kernel) (p : Pid) (pgid : Pgid)
    (ps : Process) (pg : Pgid) (g : ProcessGroup) (sid : Sid) (sess : Session)
    (hps : lookupA s.procs p = some ps)
    (hpg : ps.group = some pg)
    (hg : lookupA s.groups pg = some g)
    (hne : pgid ≠ pg)
    (hsid : g.session = some sid)
    (hsess : lookupA s.sessions sid = some sess)
    (hleader : sid = p) :
    Process.set_group p pgid s = some (.error .PermissionDenied, s) := by
  unfold Process.set_group
  simp only [hps, hpg, hg, if_neg hne, hsid, hsess, if_pos hleader]

/-- C5 witness: the session leader of a fresh init state is denied a move
to the nonexistent group 2. -/
theorem c5_denied_instance :
    Process.set_group 1 2 (Process.new_init 1 Kernel.empty) =
      some (.error .PermissionDenied, Process.new_init 1 Kernel.empty) :=
  c5_session_leader_set_group_denied (Process.new_init 1 Kernel.empty) 1 2
    _ _ _ _ _ rfl rfl rfl (by decide) rfl rfl rfl

/-- C6 counterexample: the claim says a session leader's
`create_session()` is a silent no-op returning the existing session.  The
pgid-collision check runs first, and a live session leader's pid names its
own group, so the call fails `PermissionDenied` instead. -/
theorem c6_session_leader_create_session_counterexample :
    isSessionLeader (Process.new_init 1 Kernel.empty) 1 = true ∧
      Process.create_session 1 (Process.new_init 1 Kernel.empty) =
        some (.error .PermissionDenied, Process.new_init 1 Kernel.empty) :=
  ⟨rfl, rfl⟩

/-- C6 amended: for a session leader, `create_session` fails
`PermissionDenied` whenever the leader's pid is in the process-group
table (which holds for any session leader still leading its own live
group), and only no-ops with the existing session when no group with
that pgid exists. -/
theorem c6_create_session_leader_behavior (s : Kernel) (p : Pid)
    (ps : Process) (pg : Pgid) (g : ProcessGroup) (sid : Sid) (sess : Session)
    (hps : lookupA s.procs p = some ps)
    (hpg : ps.group = some pg)
    (hg : lookupA s.groups pg = some g)
    (hsid : g.session = some sid)
    (hsess : lookupA s.sessions sid = some sess)
    (hleader : sid = p) :
    Process.create_session p s =
      if memK s.process_group_table p then some (.error .PermissionDenied, s)
      else some (.ok sid, s) := by
  by_cases hm : memK s.process_group_table p = true
  · unfold Process.create_session
    simp only [hm, if_true]
  · unfold Process.create_session
    simp only [Bool.not_eq_true] at hm
    simp only [hm, Bool.false_eq_true, if_false, hps, hpg, hg, hsid, hsess, if_pos hleader]

/-- C6 witness: on the fresh init state the leader's pid is registered as
a group, so the error branch of the amended statement fires. -/
theorem c6_leader_instance :
    Process.create_session 1 (Process.new_init 1 Kernel.empty) =
      some (.error .PermissionDenied, Process.new_init 1 Kernel.empty) := by
  have h := c6_create_session_leader_behavior (Process.new_init 1 Kernel.empty) 1
    _ _ _ _ _ rfl rfl rfl rfl rfl rfl
  rw [h]
  rfl

/-- C7 counterexample: the claim says a root's `exit()` clears its
children.  For init 1 with child 2, the no-init branch of `exit` does
nothing, so the children list still holds pid 2. -/
theorem c7_root_exit_counterexample :
    parentUpgrade (Process.new_child 1 2 (Process.new_init 1 Kernel.empty)) 1 = none ∧
      childrenOf (Process.exit 1 (Process.new_child 1 2 (Process.new_init 1 Kernel.empty))) 1 =
        [2] :=
  ⟨rfl, rfl⟩

/-- C7 amended: for a process with no resolvable parent, `exit` only sets
the zombie flag; the `children` set is left unchanged rather than
cleared. -/
theorem c7_root_exit_keeps_children (s : Kernel) (p : Pid) (ps : Process)
    (hps : lookupA s.procs p = some ps)
    (hroot : parentUpgrade s p = none) :
    Process.exit p s = { s with procs := setA s.procs p { ps with is_zombie := true } } ∧
      childrenOf (Process.exit p s) p = ps.children := by
  have hfind : findInit s p = none := by
    unfold findInit
    rw [hroot]
    rfl
  have h1 := exit_eq_zombie hps hfind
  refine ⟨h1, ?_⟩
  rw [h1]
  unfold childrenOf
  show (match lookupA (setA s.procs p { ps with is_zombie := true }) p with
    | none => [] | some ps => ps.children) = ps.children
  rw [lookupA_setA_self]

/-- C7 witness: the root of a two-process tree keeps its child across
`exit`. -/
theorem c7_root_instance :
    childrenOf (Process.exit 1 (Process.new_child 1 2 (Process.new_init 1 Kernel.empty))) 1 =
      [2] :=
  (c7_root_exit_keeps_children (Process.new_child 1 2 (Process.new_init 1 Kernel.empty)) 1
    _ rfl rfl).2

/-- C8: every error return of `set_group` and `create_session` leaves the
state exactly as it was: all error checks in both functions run before
any mutation. -/
theorem c8_error_paths_pure (s : Kernel) (p pgid q : Pid) (e1 e2 : AxError)
    (s1 s2 : Kernel)
    (h1 : Process.set_group p pgid s = some (.error e1, s1))
    (h2 : Process.create_session q s = some (.error e2, s2)) :
    s1 = s ∧ s2 = s := by
  constructor
  · unfold Process.set_group at h1
    repeat' split at h1
    all_goals simp_all
  · unfold Process.create_session at h2
    repeat' split at h2
    all_goals simp_all

/-- C8 witness: in the two-process init state both a denied `set_group`
and a denied `create_session` exist, and both leave the state intact. -/
theorem c8_error_paths_instance :
    Process.new_child 1 2 (Process.new_init 1 Kernel.empty) =
        Process.new_child 1 2 (Process.new_init 1 Kernel.empty) ∧
      Process.new_child 1 2 (Process.new_init 1 Kernel.empty) =
        Process.new_child 1 2 (Process.new_init 1 Kernel.empty) :=
  c8_error_paths_pure (Process.new_child 1 2 (Process.new_init 1 Kernel.empty))
    2 5 1 .PermissionDenied .PermissionDenied _ _ rfl rfl

/-- C4: `find_zombie_child` fails `NotFound` exactly when no child
matches the filter; when a matching zombie exists it returns one
successfully; when matching children exist but none is a zombie it
returns `Ok(None)`. -/
theorem c4_find_zombie_child_spec (s : Kernel) (p : Pid) (f : ProcessFilter)
    (ps : Process) (l : List Pid)
    (hps : lookupA s.procs p = some ps)
    (hcol : collectMatching s f ps.children = some l) :
    (Process.find_zombie_child p f s = some (.error .NotFound) ↔
        ∀ c ∈ ps.children, ¬ProcessFilter.apply s f c = some true) ∧
      ((∃ c ∈ ps.children, ProcessFilter.apply s f c = some true ∧ isZombieOf s c = true) →
        ∃ z, Process.find_zombie_child p f s = some (.ok (some z)) ∧
          z ∈ ps.children ∧ ProcessFilter.apply s f z = some true ∧
          isZombieOf s z = true) ∧
      (((∃ c ∈ ps.children, ProcessFilter.apply s f c = some true) ∧
          ∀ c ∈ ps.children, ProcessFilter.apply s f c = some true →
            isZombieOf s c = false) →
        Process.find_zombie_child p f s = some (.ok none)) := by
  have hmem := collectMatching_mem hcol
  have hred : Process.find_zombie_child p f s =
      (if l.isEmpty then some (.error .NotFound)
       else match l.find? (isZombieOf s) with
         | some z => some (.ok (some z))
         | none => some (.ok none)) := by
    unfold Process.find_zombie_child
    simp only [hps, hcol]
  refine ⟨?_, ?_, ?_⟩
  · rw [hred]
    by_cases hl : l.isEmpty = true
    · rw [if_pos hl]
      constructor
      · intro _ c hc hap
        have hcl : c ∈ l := (hmem c).mpr ⟨hc, hap⟩
        rw [List.isEmpty_iff.mp hl] at hcl
        cases hcl
      · intro _
        rfl
    · rw [if_neg hl]
      constructor
      · intro hcontr
        cases hfz : l.find? (isZombieOf s) with
        | some z =>
          rw [hfz] at hcontr
          simp at hcontr
        | none =>
          rw [hfz] at hcontr
          simp at hcontr
      · intro hall
        exfalso
        apply hl
        rw [List.isEmpty_iff, List.eq_nil_iff_forall_not_mem]
        intro a ha
        obtain ⟨hat, hap⟩ := (hmem a).mp ha
        exact hall a hat hap
  · rintro ⟨c, hc, hap, hz⟩
    have hcl : c ∈ l := (hmem c).mpr ⟨hc, hap⟩
    have hlne : ¬l.isEmpty = true := by
      intro hl
      rw [List.isEmpty_iff.mp hl] at hcl
      cases hcl
    cases hfz : l.find? (isZombieOf s) with
    | none =>
      exact absurd hz (by simpa using (List.find?_eq_none.mp hfz) c hcl)
    | some z =>
      have hzl := List.mem_of_find?_eq_some hfz
      obtain ⟨hzc, hzap⟩ := (hmem z).mp hzl
      refine ⟨z, ?_, hzc, hzap, List.find?_some hfz⟩
      rw [hred, if_neg hlne, hfz]
  · rintro ⟨⟨c, hc, hap⟩, hall⟩
    have hcl : c ∈ l := (hmem c).mpr ⟨hc, hap⟩
    have hlne : ¬l.isEmpty = true := by
      intro hl
      rw [List.isEmpty_iff.mp hl] at hcl
      cases hcl
    have hfz : l.find? (isZombieOf s) = none := by
      rw [List.find?_eq_none]
      intro a ha
      obtain ⟨hat, hap'⟩ := (hmem a).mp ha
      rw [hall a hat hap']
      simp
    rw [hred, if_neg hlne, hfz]

/-- C4 witness: a fresh init has no children, so waiting with filter Any
fails `NotFound`, via the first clause of the specification theorem. -/
theorem c4_find_zombie_child_instance :
    Process.find_zombie_child 1 .Any (Process.new_init 1 Kernel.empty) =
      some (.error .NotFound) := by
  have h := (c4_find_zombie_child_spec (Process.new_init 1 Kernel.empty) 1 .Any
    _ _ rfl rfl).1
  exact h.mpr (fun c hc _ => absurd hc (List.not_mem_nil c))

/-- C9: when `find_zombie_child` returns a zombie, it is the matching
zombie child of smallest pid, because the `children` map iterates in
ascending key order and the first zombie of the filtered list is taken. -/
theorem c9_first_zombie_minimal_pid (s : Kernel) (p : Pid) (f : ProcessFilter)
    (ps : Process) (l : List Pid) (z : Pid)
    (hps : lookupA s.procs p = some ps)
    (hsorted : ps.children.Pairwise (· < ·))
    (hcol : collectMatching s f ps.children = some l)
    (hres : Process.find_zombie_child p f s = some (.ok (some z))) :
    z ∈ ps.children ∧ ProcessFilter.apply s f z = some true ∧
      isZombieOf s z = true ∧
      ∀ c ∈ ps.children, ProcessFilter.apply s f c = some true →
        isZombieOf s c = true → z ≤ c := by
  have hmem := collectMatching_mem hcol
  unfold Process.find_zombie_child at hres
  simp only [hps, hcol] at hres
  by_cases hl : l.isEmpty = true
  · rw [if_pos hl] at hres
    simp at hres
  · rw [if_neg hl] at hres
    cases hfz : l.find? (isZombieOf s) with
    | none =>
      rw [hfz] at hres
      simp at hres
    | some z' =>
      rw [hfz] at hres
      have hz : z' = z := by simpa using hres
      subst hz
      have hsl : l.Pairwise (· < ·) :=
        List.Pairwise.sublist (collectMatching_sublist hcol) hsorted
      have hzl := List.mem_of_find?_eq_some hfz
      obtain ⟨hzc, hzap⟩ := (hmem z').mp hzl
      refine ⟨hzc, hzap, List.find?_some hfz, ?_⟩
      intro c hc hap hzc'
      exact find?_first_le hsl hfz c ((hmem c).mpr ⟨hc, hap⟩) hzc'

/-- C9 witness: with zombie children 2 and 3, the query returns 2 and the
minimality clause applies to both children. -/
theorem c9_minimal_instance :
    2 ∈ childrenOf
        (Process.exit 3 (Process.exit 2 (Process.new_child 1 3
          (Process.new_child 1 2 (Process.new_init 1 Kernel.empty))))) 1 ∧
      isZombieOf
        (Process.exit 3 (Process.exit 2 (Process.new_child 1 3
          (Process.new_child 1 2 (Process.new_init 1 Kernel.empty))))) 2 = true := by
  have h := c9_first_zombie_minimal_pid
    (Process.exit 3 (Process.exit 2 (Process.new_child 1 3
      (Process.new_child 1 2 (Process.new_init 1 Kernel.empty))))) 1 .Any
    _ _ 2 rfl (by decide) rfl rfl
  exact ⟨h.1, h.2.2.1⟩

/-- C3: `exit` on a process with a parent sets the zombie flag, walks the
parent chain to the topmost resolvable ancestor `i`, empties the caller's
`children` map, and moves every child there, rewriting each moved child's
parent back-reference to `i`. -/
theorem c3_exit_reparents_children (s : Kernel) (p i : Pid) (ps : Process)
    (hps : lookupA s.procs p = some ps)
    (hfind : findInit s p = some i)
    (htop : parentUpgrade s i = none)
    (hip : i ≠ p)
    (hicont : containsKeyA s.procs i = true)
    (hics : i ∉ ps.children)
    (hpcs : p ∉ ps.children)
    (hcs : ∀ c ∈ ps.children, containsKeyA s.procs c = true)
    (hnd : ps.children.Pairwise (· ≠ ·)) :
    isZombieOf (Process.exit p s) p = true ∧
      childrenOf (Process.exit p s) p = [] ∧
      ∀ c ∈ ps.children,
        parentRefOf (Process.exit p s) c = some i ∧
          c ∈ childrenOf (Process.exit p s) i := by
  have hself := exit_lookup_self hps hfind hip hpcs
  have hicont' : (lookupA s.procs i).isSome = true := hicont
  obtain ⟨ist, hist⟩ := Option.isSome_iff_exists.mp hicont'
  have hinit := exit_lookup_init hps hfind hip hics hist
  refine ⟨?_, ?_, ?_⟩
  · unfold isZombieOf
    rw [hself]
  · unfold childrenOf
    rw [hself]
  · intro c hc
    have hcp : c ≠ p := fun hh => hpcs (hh ▸ hc)
    have hccont : (lookupA s.procs c).isSome = true := hcs c hc
    obtain ⟨cst, hcst⟩ := Option.isSome_iff_exists.mp hccont
    have hmv := exit_lookup_moved hps hfind hnd hics hc hcp hcst
    constructor
    · unfold parentRefOf
      rw [hmv]
    · unfold childrenOf
      rw [hinit]
      exact mem_foldl_insertK.mpr (Or.inr hc)

/-- C3 witness: in the tree init 1, child 2, grandchild 3, exiting 2
reparents 3 to init: its parent back-reference becomes 1 and init's
children contain it. -/
theorem c3_reparent_scenario :
    parentRefOf (Process.exit 2 (Process.new_child 2 3 (Process.new_child 1 2
        (Process.new_init 1 Kernel.empty)))) 3 = some 1 ∧
      3 ∈ childrenOf (Process.exit 2 (Process.new_child 2 3 (Process.new_child 1 2
        (Process.new_init 1 Kernel.empty)))) 1 := by
  have h := c3_exit_reparents_children
    (Process.new_child 2 3 (Process.new_child 1 2 (Process.new_init 1 Kernel.empty)))
    2 1 _ rfl rfl rfl (by decide) rfl (by decide) (by decide) (by decide) (by decide)
  exact h.2.2 3 (by decide)

/-- C10: `exit` is idempotent.  After the first call the caller is
already a zombie and its `children` map is empty (or untouched for a
root), so the second call rewrites the same records with the same values
and moves nothing. -/
theorem c10_exit_idempotent (s : Kernel) (p : Pid) (ps : Process)
    (hps : lookupA s.procs p = some ps)
    (hpcs : p ∉ ps.children)
    (hwf : exitWF s p ps = true) :
    Process.exit p (Process.exit p s) = Process.exit p s := by
  cases hfind : findInit s p with
  | none =>
    have h1 := exit_eq_zombie hps hfind
    rw [h1]
    have hps1 : lookupA (setA s.procs p { ps with is_zombie := true }) p =
        some { ps with is_zombie := true } := lookupA_setA_self _ _ _
    have hpu := parentUpgrade_setA_same_parent (v := { ps with is_zombie := true }) hps rfl
    have hlen : (setA s.procs p { ps with is_zombie := true }).length = s.procs.length :=
      length_setA_of_contains (by simp [containsKeyA, hps]) _
    have hfind1 :
        findInit { s with procs := setA s.procs p { ps with is_zombie := true } } p = none := by
      rw [findInit_congr hpu hlen p]
      exact hfind
    have h2 := exit_eq_zombie hps1 hfind1
    rw [h2]
    show { s with
        procs := (setA (setA s.procs p { ps with is_zombie := true }) p
          { ps with is_zombie := true }) } =
      { s with procs := setA s.procs p { ps with is_zombie := true } }
    rw [setA_eq_of_lookup hps1]
  | some i =>
    have hwf' := hwf
    unfold exitWF at hwf'
    rw [hfind] at hwf'
    simp only [Bool.and_eq_true, Bool.not_eq_true', beq_eq_false_iff_ne] at hwf'
    obtain ⟨⟨⟨hicont, hip⟩, hicsb⟩, havoid⟩ := hwf'
    have hics : i ∉ ps.children := memK_eq_false_iff.mp hicsb
    have hself := exit_lookup_self hps hfind hip hpcs
    have hkeys := exit_keys hps hfind
    have hlen := exit_length hps hfind
    have hicont' : (lookupA s.procs i).isSome = true := hicont
    obtain ⟨ist, hist⟩ := Option.isSome_iff_exists.mp hicont'
    have hinit := exit_lookup_init hps hfind hip hics hist
    have hpar : ∀ q, q ∉ ps.children →
        (lookupA (Process.exit p s).procs q).map Process.parent =
          (lookupA s.procs q).map Process.parent := by
      intro q hq
      by_cases hqp : q = p
      · subst hqp
        rw [hself, hps]
        rfl
      · by_cases hqi : q = i
        · subst hqi
          rw [hinit, hist]
          rfl
        · rw [exit_lookup_other hps hfind hq hqp hqi]
    have hpu : ∀ q, q ∉ ps.children →
        parentUpgrade (Process.exit p s) q = parentUpgrade s q :=
      fun q hq => parentUpgrade_congr_at hkeys (hpar q hq)
    have hstart : parentUpgrade (Process.exit p s) p = parentUpgrade s p := hpu p hpcs
    have hwalk := walkInit_eq_of_avoids hpu (s.procs.length + 1) (parentUpgrade s p) none havoid
    have hfindx : findInit (Process.exit p s) p = some i := by
      unfold findInit
      rw [hlen, hstart, hwalk.1]
      exact hfind
    have hps2 : lookupA (Process.exit p s).procs p =
        some { ps with is_zombie := true, children := ([] : List Pid) } := hself
    have h2 := exit_eq_fold hps2 hfindx
    rw [h2]
    show { Process.exit p s with
        procs := (setA (Process.exit p s).procs p
          { ps with is_zombie := true, children := ([] : List Pid) }) } =
      Process.exit p s
    rw [setA_eq_of_lookup hps2]

/-- C10 witness: exiting pid 2 of the tree 1 → 2 → 3 twice gives the same
state as exiting it once. -/
theorem c10_idempotent_instance :
    Process.exit 2 (Process.exit 2 (Process.new_child 2 3 (Process.new_child 1 2
        (Process.new_init 1 Kernel.empty)))) =
      Process.exit 2 (Process.new_child 2 3 (Process.new_child 1 2
        (Process.new_init 1 Kernel.empty))) :=
  c10_exit_idempotent
    (Process.new_child 2 3 (Process.new_child 1 2 (Process.new_init 1 Kernel.empty)))
    2 _ rfl (by decide) (by decide)

end StarryProcess
